import Mathlib

/-!
# Verification of the `ChatRoom` room coordinator (worker.js)

A shallow embedding of the Cloudflare Durable Object `ChatRoom` from
`worker.js` (`ChatRoom.handleWebSocket`).  The room state consists of

* `sessions` — the array of WebSocket connections attached to the room
  (`this.sessions`, a JS array; we identify each WebSocket object by a
  natural number standing for its reference identity), and
* `participants` — the JS `Map` from a client-chosen session id (string)
  to `{ ws, userName, trackInfo }` (`this.participants`), modelled as an
  association list preserving insertion order, exactly as a JS `Map` does
  (`set` overwrites in place when the key exists, appends otherwise).

Whether a given WebSocket is currently in the `OPEN` ready state is a
parameter `f : Nat → Bool` of each handler (the code reads
`session.readyState === WebSocket.OPEN` at send time); the state
transition itself never depends on it, only the emitted messages do.
-/

namespace ChatRoom

/-- One entry of a `joinRoom` message's `trackInfo` array:
`{ mid, trackName, kind }` (opaque to the coordinator). -/
structure TrackD where
  mid : String
  trackName : String
  kind : String
deriving DecidableEq, Repr

/-- Value stored in `this.participants` for one participant:
`{ ws, userName, trackInfo }`. -/
structure PInfo where
  ws : Nat
  userName : String
  trackInfo : List TrackD
deriving DecidableEq, Repr

/-- Public fields sent in an `existingParticipants` list:
`{ sessionId, userName, trackInfo }`. -/
structure PubInfo where
  sessionId : String
  userName : String
  trackInfo : List TrackD
deriving DecidableEq, Repr

/-- The room's mutable state: `this.sessions` and `this.participants`. -/
structure RoomState where
  sessions : List Nat
  participants : List (String × PInfo)
deriving DecidableEq, Repr

/-- The state set up by the `ChatRoom` constructor:
`this.sessions = []`, `this.participants = new Map()`. -/
def initState : RoomState := ⟨[], []⟩

/-- Outbound messages produced by the handlers, tagged with the
destination socket they are sent on. -/
inductive OutMsg where
  | participantJoined (dest : Nat) (sessionId : String) (userName : String)
      (trackInfo : List TrackD)
  | existingParticipants (dest : Nat) (participants : List PubInfo)
  | participantLeft (dest : Nat) (sessionId : String)
deriving DecidableEq, Repr

/-- A parsed inbound message: a record with a `type` tag and the fields
the `joinRoom` branch destructures (`sessionId`, `userName`,
`trackInfo`).  For non-`joinRoom` messages the other fields are
irrelevant (the handler never reads them). -/
structure InMsg where
  ty : String
  sessionId : String
  userName : String
  trackInfo : List TrackD
deriving DecidableEq, Repr

/-- A raw inbound frame: either text that `JSON.parse` rejects
(`malformed`) or one that parses to a structured message. -/
inductive RawFrame where
  | malformed
  | parsed (m : InMsg)
deriving DecidableEq, Repr

/-- Model of `this.participants.set k v` — JS `Map.set`: overwrite in place if
the key is present, append otherwise. -/
def mapSet : List (String × PInfo) → String → PInfo → List (String × PInfo)
  | [], k, v => [(k, v)]
  | (k', v') :: rest, k, v =>
      if k' = k then (k, v) :: rest else (k', v') :: mapSet rest k v

/-- Model of `this.participants.get k` — first (only) entry with key `k`. -/
def mapGet : List (String × PInfo) → String → Option PInfo
  | [], _ => none
  | (k', v') :: rest, k => if k' = k then some v' else mapGet rest k

/-- The close handler's scan: iterate the entries, and on the first
entry whose `ws` field is the closing socket, record its id, delete it
and `break`.  Returns the id found (if any) and the remaining map. -/
def scanRemove : List (String × PInfo) → Nat → Option String × List (String × PInfo)
  | [], _ => (none, [])
  | (k, v) :: rest, w =>
      if v.ws = w then (some k, rest)
      else
        let r := scanRemove rest w
        (r.1, (k, v) :: r.2)

/-- The `existingParticipants` list built in the `joinRoom` branch:
every entry of the (post-insert) map except the sender's own id, with
public fields only, in map iteration order. -/
def snapshotExcept (m : List (String × PInfo)) (sid : String) : List PubInfo :=
  m.filterMap fun e =>
    if e.1 ≠ sid then some ⟨e.1, e.2.userName, e.2.trackInfo⟩ else none

/-- The `joinRoom` branch of the message listener:
1. `this.participants.set(sessionId, { ws, userName, trackInfo })`;
2. broadcast `participantJoined` to every session in `this.sessions`
   that is not the sender and whose `readyState` is `OPEN`;
3. build the `existingParticipants` list from the post-insert map,
   excluding the sender's id;
4. send it back to the sender if the sender's own socket is `OPEN`. -/
def handleJoin (f : Nat → Bool) (st : RoomState) (ws : Nat)
    (sid userName : String) (trackInfo : List TrackD) :
    RoomState × List OutMsg :=
  let parts := mapSet st.participants sid ⟨ws, userName, trackInfo⟩
  let joined := st.sessions.filterMap fun s =>
    if s ≠ ws ∧ f s = true then
      some (.participantJoined s sid userName trackInfo)
    else none
  let existing := snapshotExcept parts sid
  let reply :=
    if f ws = true then [OutMsg.existingParticipants ws existing] else []
  ({ st with participants := parts }, joined ++ reply)

/-- Dispatch of a parsed message: only `type === 'joinRoom'` is handled;
every other type falls through the `if` with no effect. -/
def handleMessage (f : Nat → Bool) (st : RoomState) (ws : Nat) (m : InMsg) :
    RoomState × List OutMsg :=
  if m.ty = "joinRoom" then handleJoin f st ws m.sessionId m.userName m.trackInfo
  else (st, [])

/-- The whole message listener.  On a malformed frame `JSON.parse`
throws on the first statement of the listener: no state has been touched
and no send has been issued, so the room observes no effect (the
exception propagates to the runtime, which logs it; the socket is not
closed by the handler). -/
def onMessage (f : Nat → Bool) (st : RoomState) (ws : Nat) (raw : RawFrame) :
    RoomState × List OutMsg :=
  match raw with
  | .malformed => (st, [])
  | .parsed m => handleMessage f st ws m

/-- The close listener:
1. `this.sessions = this.sessions.filter(s => s !== ws)`;
2. scan `this.participants` for the first entry with `data.ws === ws`,
   delete it (unconditionally) and remember its id;
3. `if (leavingSessionId)`: the broadcast is guarded by JS truthiness,
   so it runs only when an id was found **and** that id is not the
   empty string (`""` is falsy in JS); then every session of the
   (already filtered) session list whose `readyState` is `OPEN`
   receives `participantLeft{id}`. -/
def handleClose (f : Nat → Bool) (st : RoomState) (ws : Nat) :
    RoomState × List OutMsg :=
  let sessions' := st.sessions.filter fun s => s ≠ ws
  let r := scanRemove st.participants ws
  let msgs :=
    match r.1 with
    | some id =>
        if id ≠ "" then
          sessions'.filterMap fun s =>
            if f s = true then some (.participantLeft s id) else none
        else []
    | none => []
  (⟨sessions', r.2⟩, msgs)

/-- The error listener: `console.error` only — no state change, no
messages, no cleanup. -/
def handleError (st : RoomState) (_ws : Nat) : RoomState × List OutMsg :=
  (st, [])

/-- Start of `handleWebSocket`: `this.sessions.push(ws)`. -/
def handleConnect (st : RoomState) (ws : Nat) : RoomState × List OutMsg :=
  ({ st with sessions := st.sessions ++ [ws] }, [])

/-- Events delivered to one room coordinator, serialized. -/
inductive Event where
  | connect (ws : Nat)
  | message (ws : Nat) (raw : RawFrame)
  | close (ws : Nat)
  | error (ws : Nat)
deriving DecidableEq, Repr

/-- One serialized event step of the coordinator. -/
def step (f : Nat → Bool) (st : RoomState) : Event → RoomState × List OutMsg
  | .connect ws => handleConnect st ws
  | .message ws raw => onMessage f st ws raw
  | .close ws => handleClose f st ws
  | .error ws => handleError st ws

/-- A readiness oracle that answers `OPEN` for every socket. -/
def allOpen : Nat → Bool := fun _ => true

/-- Run a trace of events, keeping only the final state.  The state
component of `step` never depends on the readiness oracle
(`step_fst_oracle_irrel`), so running with `allOpen` computes the state
reached under any readiness history. -/
def runSt (st : RoomState) : List Event → RoomState
  | [] => st
  | e :: r => runSt (step allOpen st e).1 r

/-- Run a trace of events, collecting all emitted messages in order. -/
def runOut (f : Nat → Bool) (st : RoomState) : List Event → RoomState × List OutMsg
  | [] => (st, [])
  | e :: r =>
      let p := step f st e
      let q := runOut f p.1 r
      (q.1, p.2 ++ q.2)

/-- The keys of the participants map, in iteration order. -/
def keysOf (m : List (String × PInfo)) : List String := m.map Prod.fst

/-- Project an outbound message to its `existingParticipants` content
(destination and carried list), if it is one. -/
def existingOf : OutMsg → Option (Nat × List PubInfo)
  | .existingParticipants d l => some (d, l)
  | _ => none

/-- The `(socket, sessionId)` pairs of all `joinRoom` messages of a
trace, in order. -/
def joinsOf (evs : List Event) : List (Nat × String) :=
  evs.filterMap fun e =>
    match e with
    | .message w (.parsed m) =>
        if m.ty = "joinRoom" then some (w, m.sessionId) else none
    | _ => none

/-- Runtime well-formedness of a trace from a given state: the
transport layer delivers a message event only for a socket currently
attached to the room (it was accepted, and no events are delivered
after its close removed it). -/
def wfTrace : RoomState → List Event → Bool
  | _, [] => true
  | st, e :: r =>
      (match e with
       | .message w _ => st.sessions.contains w
       | _ => true) && wfTrace (step allOpen st e).1 r

/-- Every socket uses a single client session id across all its
`joinRoom` messages of the trace. -/
def OneIdPerSocket (evs : List Event) : Prop :=
  ∀ p ∈ joinsOf evs, ∀ q ∈ joinsOf evs, p.1 = q.1 → p.2 = q.2

/-- Reachability invariant of the room state, relative to a functional
set `P` of `(socket, sessionId)` pairs the trace may join with: the map
keys are unique, every participant record's socket is attached, and
every record was announced by its own socket. -/
def Inv (P : List (Nat × String)) (st : RoomState) : Prop :=
  (keysOf st.participants).Nodup ∧
  ∀ e ∈ st.participants, e.2.ws ∈ st.sessions ∧ (e.2.ws, e.1) ∈ P

/-- The state reached by a step does not depend on which sockets are in
the `OPEN` ready state: readiness only gates the emitted sends. -/
theorem step_fst_oracle_irrel (f g : Nat → Bool) (st : RoomState) (e : Event) :
    (step f st e).1 = (step g st e).1 := by
  cases e with
  | connect ws => rfl
  | message ws raw =>
      cases raw with
      | malformed => rfl
      | parsed m =>
          simp only [step, onMessage, handleMessage]
          split <;> rfl
  | close ws =>
      simp only [step, handleClose]
  | error ws => rfl

theorem mapGet_mapSet_self (m : List (String × PInfo)) (k : String) (v : PInfo) :
    mapGet (mapSet m k v) k = some v := by
  induction m with
  | nil => simp [mapSet, mapGet]
  | cons e rest ih =>
      obtain ⟨k', v'⟩ := e
      by_cases h : k' = k
      · simp [mapSet, mapGet, h]
      · simp [mapSet, mapGet, h, ih]

theorem mapGet_mapSet_ne (m : List (String × PInfo)) (k k' : String) (v : PInfo)
    (h : k' ≠ k) : mapGet (mapSet m k v) k' = mapGet m k' := by
  induction m with
  | nil => simp [mapSet, mapGet, Ne.symm h]
  | cons e rest ih =>
      obtain ⟨k'', v''⟩ := e
      by_cases hk : k'' = k
      · subst hk
        simp [mapSet, mapGet, Ne.symm h]
      · by_cases hk' : k'' = k'
        · simp [mapSet, mapGet, hk, hk', h]
        · simp [mapSet, mapGet, hk, hk', ih]

theorem mem_mapSet (m : List (String × PInfo)) (k : String) (v : PInfo)
    (e : String × PInfo) (he : e ∈ mapSet m k v) : e = (k, v) ∨ e ∈ m := by
  induction m with
  | nil => simpa [mapSet] using he
  | cons e' rest ih =>
      obtain ⟨k', v'⟩ := e'
      by_cases h : k' = k
      · simp only [mapSet, if_pos h] at he
        rcases List.mem_cons.mp he with h1 | h1
        · exact Or.inl h1
        · exact Or.inr (List.mem_cons_of_mem _ h1)
      · simp only [mapSet, if_neg h] at he
        rcases List.mem_cons.mp he with h1 | h1
        · exact Or.inr (List.mem_cons.mpr (Or.inl h1))
        · rcases ih h1 with h2 | h2
          · exact Or.inl h2
          · exact Or.inr (List.mem_cons_of_mem _ h2)

theorem keysOf_mapSet (m : List (String × PInfo)) (k : String) (v : PInfo) :
    keysOf (mapSet m k v) =
      if k ∈ keysOf m then keysOf m else keysOf m ++ [k] := by
  induction m with
  | nil => simp [mapSet, keysOf]
  | cons e rest ih =>
      obtain ⟨k', v'⟩ := e
      by_cases h : k' = k
      · simp [mapSet, keysOf, h]
      · have h1 : mapSet ((k', v') :: rest) k v = (k', v') :: mapSet rest k v := by
          simp [mapSet, h]
        rw [h1]
        have h2 : keysOf ((k', v') :: mapSet rest k v) = k' :: keysOf (mapSet rest k v) := rfl
        have h3 : keysOf ((k', v') :: rest) = k' :: keysOf rest := rfl
        rw [h2, h3, ih]
        by_cases hmem : k ∈ keysOf rest
        · simp [hmem]
        · simp [hmem, Ne.symm h]

theorem keysOf_nodup_mapSet (m : List (String × PInfo)) (k : String) (v : PInfo)
    (h : (keysOf m).Nodup) : (keysOf (mapSet m k v)).Nodup := by
  rw [keysOf_mapSet]
  by_cases hmem : k ∈ keysOf m
  · simpa [hmem] using h
  · simp only [hmem, if_neg, ite_false]
    exact List.Nodup.append h (List.nodup_singleton k)
      (by simpa [List.disjoint_singleton] using hmem)

theorem mapSet_mapSet_same (m : List (String × PInfo)) (k : String) (v : PInfo) :
    mapSet (mapSet m k v) k v = mapSet m k v := by
  induction m with
  | nil => simp [mapSet]
  | cons e rest ih =>
      obtain ⟨k', v'⟩ := e
      by_cases h : k' = k
      · simp [mapSet, h]
      · simp [mapSet, h, ih]

theorem count_keysOf_mapSet (m : List (String × PInfo)) (k : String) (v : PInfo)
    (h : (keysOf m).Nodup) : (keysOf (mapSet m k v)).count k = 1 := by
  rw [keysOf_mapSet]
  by_cases hmem : k ∈ keysOf m
  · rw [if_pos hmem]
    exact List.count_eq_one_of_mem h hmem
  · rw [if_neg hmem]
    rw [List.count_append]
    rw [List.count_eq_zero_of_not_mem hmem]
    simp

/-- Under `Nodup` keys, `mapGet` agrees with membership of entries. -/
theorem mapGet_eq_some_iff_mem (m : List (String × PInfo)) (k : String) (v : PInfo) :
    (keysOf m).Nodup → (mapGet m k = some v ↔ (k, v) ∈ m) := by
  induction m with
  | nil =>
      intro _
      simp [mapGet]
  | cons e rest ih =>
      intro h
      obtain ⟨k', v'⟩ := e
      have hnd : (keysOf rest).Nodup := (List.nodup_cons.mp h).2
      have hk' : k' ∉ keysOf rest := (List.nodup_cons.mp h).1
      by_cases hk : k' = k
      · subst hk
        constructor
        · intro h1
          have h2 : v' = v := by simpa [mapGet] using h1
          rw [← h2]
          exact List.mem_cons_self _ _
        · intro h1
          rcases List.mem_cons.mp h1 with h2 | h2
          · have h3 : v = v' := congrArg Prod.snd h2
            simp [mapGet, h3]
          · exact absurd (List.mem_map_of_mem Prod.fst h2) hk'
      · have h3 : mapGet ((k', v') :: rest) k = mapGet rest k := by
          simp [mapGet, hk]
        rw [h3, ih hnd, List.mem_cons]
        constructor
        · exact Or.inr
        · rintro (h1 | h1)
          · exact absurd (congrArg Prod.fst h1).symm hk
          · exact h1

theorem mapGet_eq_none_iff (m : List (String × PInfo)) (k : String) :
    mapGet m k = none ↔ k ∉ keysOf m := by
  induction m with
  | nil => simp [mapGet, keysOf]
  | cons e rest ih =>
      obtain ⟨k', v'⟩ := e
      have h3 : keysOf ((k', v') :: rest) = k' :: keysOf rest := rfl
      by_cases hk : k' = k
      · subst hk
        simp [mapGet, h3]
      · simp only [mapGet, if_neg hk, h3, List.mem_cons, ih]
        constructor
        · intro h1 h2
          rcases h2 with h2 | h2
          · exact hk h2.symm
          · exact h1 h2
        · intro h1 h2
          exact h1 (Or.inr h2)

theorem scanRemove_sublist (m : List (String × PInfo)) (w : Nat) :
    (scanRemove m w).2.Sublist m := by
  induction m with
  | nil => simp [scanRemove]
  | cons e rest ih =>
      obtain ⟨k, v⟩ := e
      by_cases h : v.ws = w
      · simp only [scanRemove, if_pos h]
        exact List.sublist_cons_self _ _
      · simp only [scanRemove, if_neg h]
        exact List.Sublist.cons₂ _ ih

theorem scanRemove_of_no_match (m : List (String × PInfo)) (w : Nat)
    (h : ∀ e ∈ m, e.2.ws ≠ w) : scanRemove m w = (none, m) := by
  induction m with
  | nil => simp [scanRemove]
  | cons e rest ih =>
      obtain ⟨k, v⟩ := e
      have h1 : v.ws ≠ w := h (k, v) (List.mem_cons_self _ _)
      have h2 : scanRemove rest w = (none, rest) :=
        ih fun e he => h e (List.mem_cons_of_mem _ he)
      simp [scanRemove, h1, h2]

theorem scanRemove_none (m : List (String × PInfo)) (w : Nat)
    (h : (scanRemove m w).1 = none) :
    (scanRemove m w).2 = m ∧ ∀ e ∈ m, e.2.ws ≠ w := by
  induction m with
  | nil => simp [scanRemove]
  | cons e rest ih =>
      obtain ⟨k, v⟩ := e
      by_cases h1 : v.ws = w
      · simp [scanRemove, h1] at h
      · simp only [scanRemove, if_neg h1] at h ⊢
        obtain ⟨h2, h3⟩ := ih h
        refine ⟨by rw [h2], ?_⟩
        intro e he
        rcases List.mem_cons.mp he with h4 | h4
        · rw [h4]
          exact h1
        · exact h3 e h4

theorem scanRemove_some (m : List (String × PInfo)) (w : Nat) (id : String)
    (h : (scanRemove m w).1 = some id) :
    ∃ v, (id, v) ∈ m ∧ v.ws = w := by
  induction m with
  | nil => simp [scanRemove] at h
  | cons e rest ih =>
      obtain ⟨k, v⟩ := e
      by_cases h1 : v.ws = w
      · simp only [scanRemove, if_pos h1, Option.some.injEq] at h
        exact ⟨v, by rw [← h]; exact List.mem_cons_self _ _, h1⟩
      · simp only [scanRemove, if_neg h1] at h
        obtain ⟨v', hv1, hv2⟩ := ih h
        exact ⟨v', List.mem_cons_of_mem _ hv1, hv2⟩

/-- After the close-handler scan removed the entry with id `id`, that id
no longer resolves in the map (keys unique). -/
theorem scanRemove_mapGet_removed (m : List (String × PInfo)) (w : Nat) (id : String) :
    (keysOf m).Nodup → (scanRemove m w).1 = some id →
    mapGet (scanRemove m w).2 id = none := by
  induction m with
  | nil =>
      intro _ h
      simp [scanRemove] at h
  | cons e rest ih =>
      intro hnd h
      obtain ⟨k, v⟩ := e
      have hk : k ∉ keysOf rest := (List.nodup_cons.mp hnd).1
      have hrest : (keysOf rest).Nodup := (List.nodup_cons.mp hnd).2
      by_cases h1 : v.ws = w
      · simp only [scanRemove, if_pos h1, Option.some.injEq] at h ⊢
        rw [← h]
        exact (mapGet_eq_none_iff rest k).mpr hk
      · simp only [scanRemove, if_neg h1] at h ⊢
        have h2 : mapGet (scanRemove rest w).2 id = none := ih hrest h
        obtain ⟨v', hv1, _⟩ := scanRemove_some rest w id h
        have h3 : k ≠ id := by
          intro hkid
          exact hk (hkid ▸ List.mem_map_of_mem Prod.fst hv1)
        simp [mapGet, h3, h2]

/-- The close-handler scan leaves the lookup of every other id intact. -/
theorem scanRemove_mapGet_other (m : List (String × PInfo)) (w : Nat) (k : String)
    (h : ∀ id, (scanRemove m w).1 = some id → k ≠ id) :
    mapGet (scanRemove m w).2 k = mapGet m k := by
  induction m with
  | nil => simp [scanRemove]
  | cons e rest ih =>
      obtain ⟨k0, v0⟩ := e
      by_cases h1 : v0.ws = w
      · have h2 : (scanRemove ((k0, v0) :: rest) w).1 = some k0 := by
          simp [scanRemove, h1]
        have h3 : k ≠ k0 := h k0 h2
        simp only [scanRemove, if_pos h1]
        simp [mapGet, Ne.symm h3]
      · simp only [scanRemove, if_neg h1]
        by_cases h4 : k0 = k
        · simp [mapGet, h4]
        · have h5 : mapGet (scanRemove rest w).2 k = mapGet rest k := by
            apply ih
            intro id hid
            apply h
            simp [scanRemove, h1, hid]
          simp [mapGet, h4, h5]

/-- If at most one entry of the map can carry the closing socket, no
entry of the post-scan map still references it. -/
theorem scanRemove_clears_ws (m : List (String × PInfo)) (w : Nat) :
    (keysOf m).Nodup →
    (∀ e1 ∈ m, ∀ e2 ∈ m, e1.2.ws = w → e2.2.ws = w → e1 = e2) →
    ∀ e ∈ (scanRemove m w).2, e.2.ws ≠ w := by
  induction m with
  | nil =>
      intro _ _ e he
      simp [scanRemove] at he
  | cons p rest ih =>
      intro hnd huniq e he
      obtain ⟨k, v⟩ := p
      have hk : k ∉ keysOf rest := (List.nodup_cons.mp hnd).1
      have hrest : (keysOf rest).Nodup := (List.nodup_cons.mp hnd).2
      by_cases h1 : v.ws = w
      · simp only [scanRemove, if_pos h1] at he
        intro hew
        have h2 : e = (k, v) :=
          huniq e (List.mem_cons_of_mem _ he) (k, v) (List.mem_cons_self _ _) hew h1
        rw [h2] at he
        exact hk (List.mem_map_of_mem Prod.fst he)
      · simp only [scanRemove, if_neg h1] at he
        rcases List.mem_cons.mp he with h2 | h2
        · rw [h2]
          exact h1
        · exact ih hrest
            (fun e1 he1 e2 he2 => huniq e1 (List.mem_cons_of_mem _ he1)
              e2 (List.mem_cons_of_mem _ he2))
            e h2

section Broadcast

variable {α β : Type}

/-- Characterization of a guarded broadcast (`forEach` with an `if`
around `send`): a message is produced iff some listed element passes the
guard and generates it. -/
theorem mem_filterMap_guard (p : α → Prop) [DecidablePred p] (mk : α → β)
    (l : List α) (m : β) :
    m ∈ l.filterMap (fun t => if p t then some (mk t) else none) ↔
      ∃ t, t ∈ l ∧ p t ∧ m = mk t := by
  rw [List.mem_filterMap]
  constructor
  · rintro ⟨t, ht, hm⟩
    by_cases hp : p t
    · rw [if_pos hp] at hm
      exact ⟨t, ht, hp, (Option.some.inj hm).symm⟩
    · rw [if_neg hp] at hm
      exact absurd hm (by simp)
  · rintro ⟨t, ht, hp, rfl⟩
    exact ⟨t, ht, by rw [if_pos hp]⟩

theorem count_filterMap_guard_zero [DecidableEq β] (p : α → Prop) [DecidablePred p] (mk : α → β)
    (hinj : ∀ a b, mk a = mk b → a = b) (l : List α) (s : α) (hs : s ∉ l) :
    (l.filterMap fun t => if p t then some (mk t) else none).count (mk s) = 0 := by
  rw [List.count_eq_zero]
  intro hmem
  rw [mem_filterMap_guard] at hmem
  obtain ⟨t, ht, hp, heq⟩ := hmem
  cases hinj s t heq
  exact hs ht

/-- Each element of a duplicate-free list that passes the guard receives
its message exactly once. -/
theorem count_filterMap_guard_one [DecidableEq β] (p : α → Prop) [DecidablePred p] (mk : α → β)
    (hinj : ∀ a b, mk a = mk b → a = b) (s : α) (hp : p s) :
    ∀ l : List α, l.Nodup → s ∈ l →
    (l.filterMap fun t => if p t then some (mk t) else none).count (mk s) = 1 := by
  intro l
  induction l with
  | nil =>
      intro _ hs
      cases hs
  | cons t rest ih =>
      intro hl hs
      have hnd : rest.Nodup := (List.nodup_cons.mp hl).2
      have htni : t ∉ rest := (List.nodup_cons.mp hl).1
      by_cases hts : t = s
      · subst hts
        rw [List.filterMap_cons_some (by rw [if_pos hp])]
        rw [List.count_cons_self]
        rw [count_filterMap_guard_zero p mk hinj rest t htni]
      · have hs' : s ∈ rest := by
          rcases List.mem_cons.mp hs with h | h
          · exact absurd h.symm hts
          · exact h
        by_cases hpt : p t
        · rw [List.filterMap_cons_some (by rw [if_pos hpt])]
          have hne : mk s ≠ mk t := fun h => hts (hinj s t h).symm
          rw [List.count_cons_of_ne hne]
          exact ih hnd hs'
        · rw [List.filterMap_cons_none (by rw [if_neg hpt])]
          exact ih hnd hs'

end Broadcast

/-- With duplicate-free keys, an entry is determined by its key. -/
theorem keys_nodup_inj (m : List (String × PInfo)) :
    (keysOf m).Nodup → ∀ e1 ∈ m, ∀ e2 ∈ m, e1.1 = e2.1 → e1 = e2 := by
  induction m with
  | nil =>
      intro _ e1 he1
      cases he1
  | cons p rest ih =>
      intro hnd e1 he1 e2 he2 hk
      have hcons : keysOf (p :: rest) = p.1 :: keysOf rest := rfl
      rw [hcons] at hnd
      have hp : p.1 ∉ keysOf rest := (List.nodup_cons.mp hnd).1
      have hrest : (keysOf rest).Nodup := (List.nodup_cons.mp hnd).2
      rcases List.mem_cons.mp he1 with h1 | h1 <;>
        rcases List.mem_cons.mp he2 with h2 | h2
      · rw [h1, h2]
      · exfalso
        apply hp
        rw [h1] at hk
        exact hk ▸ List.mem_map_of_mem Prod.fst h2
      · exfalso
        apply hp
        rw [h2] at hk
        exact hk ▸ List.mem_map_of_mem Prod.fst h1
      · exact ih hrest e1 h1 e2 h2 hk

/-- One-step preservation of the reachability invariant. -/
theorem inv_step (P : List (Nat × String))
    (hP : ∀ p ∈ P, ∀ q ∈ P, p.1 = q.1 → p.2 = q.2)
    (st : RoomState) (e : Event)
    (hat : ∀ w raw, e = .message w raw → w ∈ st.sessions)
    (hjoin : ∀ w m, e = .message w (.parsed m) → m.ty = "joinRoom" →
      (w, m.sessionId) ∈ P)
    (hInv : Inv P st) : Inv P (step allOpen st e).1 := by
  obtain ⟨hkeys, hmem⟩ := hInv
  cases e with
  | connect w =>
      refine ⟨hkeys, ?_⟩
      intro e' he'
      obtain ⟨h1, h2⟩ := hmem e' he'
      exact ⟨List.mem_append_left _ h1, h2⟩
  | message w raw =>
      cases raw with
      | malformed => exact ⟨hkeys, hmem⟩
      | parsed m =>
          by_cases hty : m.ty = "joinRoom"
          · have hw : w ∈ st.sessions := hat w (.parsed m) rfl
            have hpair : (w, m.sessionId) ∈ P := hjoin w m rfl hty
            simp only [step, onMessage, handleMessage, if_pos hty, handleJoin]
            constructor
            · exact keysOf_nodup_mapSet _ _ _ hkeys
            · intro e' he'
              rcases mem_mapSet _ _ _ _ he' with h1 | h1
              · rw [h1]
                exact ⟨hw, hpair⟩
              · exact hmem e' h1
          · simp only [step, onMessage, handleMessage, if_neg hty]
            exact ⟨hkeys, hmem⟩
  | close w =>
      simp only [step, handleClose]
      have hsub : (scanRemove st.participants w).2.Sublist st.participants :=
        scanRemove_sublist _ _
      constructor
      · exact List.Nodup.sublist (List.Sublist.map Prod.fst hsub) hkeys
      · intro e' he'
        have he'm : e' ∈ st.participants := hsub.subset he'
        obtain ⟨h1, h2⟩ := hmem e' he'm
        have huniq : ∀ e1 ∈ st.participants, ∀ e2 ∈ st.participants,
            e1.2.ws = w → e2.2.ws = w → e1 = e2 := by
          intro e1 he1 e2 he2 hw1 hw2
          have p1 : (w, e1.1) ∈ P := hw1 ▸ (hmem e1 he1).2
          have p2 : (w, e2.1) ∈ P := hw2 ▸ (hmem e2 he2).2
          exact keys_nodup_inj _ hkeys e1 he1 e2 he2 (hP _ p1 _ p2 rfl)
        have hne : e'.2.ws ≠ w :=
          scanRemove_clears_ws _ _ hkeys huniq e' he'
        refine ⟨List.mem_filter.mpr ⟨h1, by simpa using hne⟩, h2⟩
  | error w => exact ⟨hkeys, hmem⟩

/-- The invariant holds after running any well-formed trace whose joins
all lie in `P`. -/
theorem inv_run (P : List (Nat × String))
    (hP : ∀ p ∈ P, ∀ q ∈ P, p.1 = q.1 → p.2 = q.2) :
    ∀ evs st, Inv P st → wfTrace st evs = true →
    (∀ pq ∈ joinsOf evs, pq ∈ P) → Inv P (runSt st evs) := by
  intro evs
  induction evs with
  | nil =>
      intro st h _ _
      exact h
  | cons e r ih =>
      intro st hInv hwf hsub
      have hwf' := Bool.and_eq_true_iff.mp (by simpa [wfTrace] using hwf)
      apply ih (step allOpen st e).1
      · apply inv_step P hP st e ?_ ?_ hInv
        · intro w raw hew
          subst hew
          simpa using hwf'.1
        · intro w m hew hty
          apply hsub
          subst hew
          simp [joinsOf, List.filterMap_cons, hty]
      · exact hwf'.2
      · intro pq hpq
        apply hsub
        simp only [joinsOf, List.filterMap_cons]
        cases e with
        | message w raw =>
            cases raw with
            | malformed => simpa [joinsOf] using hpq
            | parsed m =>
                by_cases hty : m.ty = "joinRoom"
                · simp only [if_pos hty]
                  exact List.mem_cons_of_mem _ (by simpa [joinsOf] using hpq)
                · simp only [if_neg hty]
                  simpa [joinsOf] using hpq
        | connect w => simpa [joinsOf] using hpq
        | close w => simpa [joinsOf] using hpq
        | error w => simpa [joinsOf] using hpq

/-- If the map holds a record owned by the closing socket (and at most
one such record), the close-handler scan returns exactly its id. -/
theorem scanRemove_finds (w : Nat) (id : String) (v : PInfo) (hv : v.ws = w) :
    ∀ m : List (String × PInfo), (id, v) ∈ m →
    (∀ e1 ∈ m, ∀ e2 ∈ m, e1.2.ws = w → e2.2.ws = w → e1 = e2) →
    (scanRemove m w).1 = some id := by
  intro m
  induction m with
  | nil =>
      intro hmem _
      cases hmem
  | cons p rest ih =>
      intro hmem huniq
      obtain ⟨k, v0⟩ := p
      by_cases h : v0.ws = w
      · simp only [scanRemove, if_pos h]
        have heq : (id, v) = (k, v0) :=
          huniq (id, v) hmem (k, v0) (List.mem_cons_self _ _) hv h
        exact congrArg some (congrArg Prod.fst heq).symm
      · simp only [scanRemove, if_neg h]
        have hmem' : (id, v) ∈ rest := by
          rcases List.mem_cons.mp hmem with h1 | h1
          · exfalso
            apply h
            have h2 : v = v0 := congrArg Prod.snd h1
            rw [← h2]
            exact hv
          · exact h1
        exact ih hmem' fun e1 he1 e2 he2 =>
          huniq e1 (List.mem_cons_of_mem _ he1) e2 (List.mem_cons_of_mem _ he2)

/-- Membership in the `existingParticipants` list: exactly the map
entries whose id differs from the excluded one, projected to public
fields. -/
theorem mem_snapshotExcept (m : List (String × PInfo)) (sid : String) (p : PubInfo) :
    p ∈ snapshotExcept m sid ↔
      ∃ e, e ∈ m ∧ e.1 ≠ sid ∧ p = PubInfo.mk e.1 e.2.userName e.2.trackInfo := by
  unfold snapshotExcept
  exact mem_filterMap_guard _ _ m p

/-- The messages of a join, written as broadcast plus optional reply. -/
theorem handleJoin_snd (f : Nat → Bool) (st : RoomState) (ws : Nat)
    (sid userName : String) (ti : List TrackD) :
    (handleJoin f st ws sid userName ti).2 =
      (st.sessions.filterMap fun s =>
        if s ≠ ws ∧ f s = true then
          some (OutMsg.participantJoined s sid userName ti)
        else none) ++
      (if f ws = true then
        [OutMsg.existingParticipants ws
          (snapshotExcept (mapSet st.participants sid
            (PInfo.mk ws userName ti)) sid)]
      else []) := rfl

/-- Every open non-sender session listed in the room receives the
`participantJoined` broadcast of a join exactly once. -/
theorem handleJoin_count_participantJoined (f : Nat → Bool) (st : RoomState)
    (ws : Nat) (sid userName : String) (ti : List TrackD)
    (hnd : st.sessions.Nodup) (s : Nat) (hs : s ∈ st.sessions) (hne : s ≠ ws)
    (hf : f s = true) :
    ((handleJoin f st ws sid userName ti).2).count
      (OutMsg.participantJoined s sid userName ti) = 1 := by
  rw [handleJoin_snd, List.count_append]
  have h1 : (st.sessions.filterMap fun t =>
      if t ≠ ws ∧ f t = true then
        some (OutMsg.participantJoined t sid userName ti)
      else none).count (OutMsg.participantJoined s sid userName ti) = 1 := by
    exact count_filterMap_guard_one (fun t => t ≠ ws ∧ f t = true)
      (fun t => OutMsg.participantJoined t sid userName ti)
      (fun a b h => by injection h)
      s ⟨hne, hf⟩ st.sessions hnd hs
  rw [h1]
  by_cases hws : f ws = true
  · rw [if_pos hws]
    simp
  · rw [if_neg hws]
    simp

/-- Conversely, every `participantJoined` emitted by a join goes to a
listed, open, non-sender session and carries the join's payload. -/
theorem handleJoin_participantJoined_mem (f : Nat → Bool) (st : RoomState)
    (ws : Nat) (sid userName : String) (ti : List TrackD)
    (d : Nat) (sid2 un2 : String) (ti2 : List TrackD)
    (h : OutMsg.participantJoined d sid2 un2 ti2 ∈
      (handleJoin f st ws sid userName ti).2) :
    d ∈ st.sessions ∧ d ≠ ws ∧ f d = true ∧
      sid2 = sid ∧ un2 = userName ∧ ti2 = ti := by
  rw [handleJoin_snd] at h
  rcases List.mem_append.mp h with h1 | h1
  · rw [mem_filterMap_guard] at h1
    obtain ⟨t, ht, ⟨htne, htf⟩, heq⟩ := h1
    injection heq with e1 e2 e3 e4
    refine ⟨?_, ?_, ?_, e2, e3, e4⟩
    · rw [e1]
      exact ht
    · rw [e1]
      exact htne
    · rw [e1]
      exact htf
  · exfalso
    by_cases hws : f ws = true
    · rw [if_pos hws] at h1
      have h2 := List.mem_singleton.mp h1
      exact absurd h2 (by simp)
    · rw [if_neg hws] at h1
      cases h1

/-- Under the invariant, the sockets referenced by the participant
records are pairwise distinct. -/
theorem ws_map_nodup (P : List (Nat × String))
    (hP : ∀ p ∈ P, ∀ q ∈ P, p.1 = q.1 → p.2 = q.2) :
    ∀ m : List (String × PInfo), (keysOf m).Nodup →
    (∀ e ∈ m, (e.2.ws, e.1) ∈ P) →
    (m.map fun e => e.2.ws).Nodup := by
  intro m
  induction m with
  | nil =>
      intro _ _
      simp
  | cons p rest ih =>
      intro hnd hmem
      have hcons : keysOf (p :: rest) = p.1 :: keysOf rest := rfl
      rw [hcons] at hnd
      have hp : p.1 ∉ keysOf rest := (List.nodup_cons.mp hnd).1
      have hrest : (keysOf rest).Nodup := (List.nodup_cons.mp hnd).2
      rw [List.map_cons, List.nodup_cons]
      constructor
      · intro hws
        obtain ⟨e, he, hwse⟩ := List.mem_map.mp hws
        have p1 : (p.2.ws, p.1) ∈ P := hmem p (List.mem_cons_self _ _)
        have p2 : (p.2.ws, e.1) ∈ P :=
          hwse ▸ hmem e (List.mem_cons_of_mem _ he)
        have : p.1 = e.1 := hP _ p1 _ p2 rfl
        exact hp (this ▸ List.mem_map_of_mem Prod.fst he)
      · exact ih hrest fun e he => hmem e (List.mem_cons_of_mem _ he)

/-! ## Claim theorems -/

/-- C7: a malformed inbound frame is ignored by the coordinator — the
`JSON.parse` throw aborts the listener before any state mutation or
send, so inserting the frame anywhere in a trace changes neither the
room state (`sessions` and `participants`) nor the stream of outbound
messages, the sender's connection stays attached, and subsequent events
are processed exactly as without it (the coordinator does not crash). -/
theorem malformed_frame_is_ignored (f : Nat → Bool) (st : RoomState) (ws : Nat)
    (pre post : List Event) :
    runOut f st (pre ++ Event.message ws RawFrame.malformed :: post) =
      runOut f st (pre ++ post) := by
  induction pre generalizing st with
  | nil => simp [runOut, step, onMessage]
  | cons e pre ih => simp [runOut, ih]

/-- C8: a well-formed inbound message whose `type` is not `joinRoom`
falls through the handler's single `if`: the state (sessions and
participants) is returned unchanged and no outbound message is sent. -/
theorem nonjoin_message_is_ignored (f : Nat → Bool) (st : RoomState) (ws : Nat)
    (m : InMsg) (h : m.ty ≠ "joinRoom") :
    onMessage f st ws (RawFrame.parsed m) = (st, []) := by
  simp [onMessage, handleMessage, h]

theorem nonjoin_message_is_ignored_witness :
    (InMsg.mk "iceCandidate" "s1" "alice" []).ty ≠ "joinRoom" ∧
    onMessage allOpen initState 0
      (RawFrame.parsed (InMsg.mk "iceCandidate" "s1" "alice" [])) =
      (initState, []) :=
  ⟨by decide, nonjoin_message_is_ignored allOpen initState 0
    (InMsg.mk "iceCandidate" "s1" "alice" []) (by decide)⟩

/-- C4 (amended): a session error event performs no cleanup at all —
the error listener only logs, so the state (sessions and participants)
is unchanged and nothing is broadcast; the cleanup of C3 runs only when
the close event fires. -/
theorem error_event_performs_no_cleanup (f : Nat → Bool) (st : RoomState)
    (ws : Nat) : step f st (Event.error ws) = (st, []) := rfl

/-- C4 counterexample: after socket 1 has connected and joined, an
error event on socket 1 leaves it in `sessions`, leaves its participant
record in the registry and broadcasts no `participantLeft` — the
cleanup the claim requires does not happen (contrast: a close event on
the same state does empty the room). -/
theorem error_event_cleanup_counterexample :
    (let st := runSt initState [Event.connect 1, Event.connect 2,
        Event.message 1 (RawFrame.parsed (InMsg.mk "joinRoom" "a1" "alice" []))]
     let r := step allOpen st (Event.error 1)
     1 ∈ r.1.sessions ∧
     mapGet r.1.participants "a1" = some (PInfo.mk 1 "alice" []) ∧
     r.2 = [] ∧
     (step allOpen st (Event.close 1)).1.sessions = [2] ∧
     mapGet (step allOpen st (Event.close 1)).1.participants "a1" = none) := by
  decide

/-- C9: socket 1 joins with id `X`, then socket 2 joins with the same
id `X` — the single record for `X` is re-bound to socket 2.  When
socket 1 then closes, it is removed from `sessions`, but the close-time
scan (matching on `data.ws === ws`) finds nothing, so no
`participantLeft` is broadcast and the record for `X` survives. -/
theorem rebind_then_close_skips_participant_left :
    (let st1 := runSt initState
        [Event.connect 1, Event.connect 2,
         Event.message 1 (RawFrame.parsed (InMsg.mk "joinRoom" "X" "alice" [])),
         Event.message 2 (RawFrame.parsed (InMsg.mk "joinRoom" "X" "bob" []))]
     let r := step allOpen st1 (Event.close 1)
     mapGet st1.participants "X" = some (PInfo.mk 2 "bob" []) ∧
     st1.participants.length = 1 ∧
     r.1.sessions = [2] ∧
     r.2 = [] ∧
     mapGet r.1.participants "X" = some (PInfo.mk 2 "bob" [])) := by
  decide

/-- C10: when the joining socket is no longer `OPEN` at reply time, the
`existingParticipants` reply is silently skipped, but the join's other
effects still happen: the record is inserted and `participantJoined` is
still broadcast to the other open sessions. -/
theorem join_from_closed_socket_still_effective (f : Nat → Bool)
    (st : RoomState) (ws : Nat) (sid userName : String) (ti : List TrackD)
    (hclosed : f ws = false) :
    mapGet (handleJoin f st ws sid userName ti).1.participants sid =
        some (PInfo.mk ws userName ti) ∧
    (handleJoin f st ws sid userName ti).1.sessions = st.sessions ∧
    (∀ d l, OutMsg.existingParticipants d l ∉
        (handleJoin f st ws sid userName ti).2) ∧
    (∀ s ∈ st.sessions, s ≠ ws → f s = true →
        OutMsg.participantJoined s sid userName ti ∈
          (handleJoin f st ws sid userName ti).2) := by
  have hout : (handleJoin f st ws sid userName ti).2 =
      st.sessions.filterMap fun s =>
        if s ≠ ws ∧ f s = true then
          some (OutMsg.participantJoined s sid userName ti)
        else none := by
    rw [handleJoin_snd]
    simp [hclosed]
  refine ⟨mapGet_mapSet_self _ _ _, rfl, ?_, ?_⟩
  · intro d l hmem
    rw [hout, mem_filterMap_guard] at hmem
    obtain ⟨t, _, _, heq⟩ := hmem
    exact absurd heq (by simp)
  · intro s hs hne hf
    rw [hout, mem_filterMap_guard]
    exact ⟨s, hs, ⟨hne, hf⟩, rfl⟩

theorem join_from_closed_socket_still_effective_witness :
    ((fun n : Nat => decide (n = 1)) 0 = false) ∧
    (mapGet (handleJoin (fun n : Nat => decide (n = 1))
        (RoomState.mk [0, 1] []) 0 "a1" "alice" []).1.participants "a1" =
        some (PInfo.mk 0 "alice" []) ∧
     (handleJoin (fun n : Nat => decide (n = 1))
        (RoomState.mk [0, 1] []) 0 "a1" "alice" []).1.sessions = [0, 1] ∧
     (∀ d l, OutMsg.existingParticipants d l ∉
        (handleJoin (fun n : Nat => decide (n = 1))
          (RoomState.mk [0, 1] []) 0 "a1" "alice" []).2) ∧
     (∀ s ∈ (RoomState.mk [0, 1] []).sessions, s ≠ 0 →
        (fun n : Nat => decide (n = 1)) s = true →
        OutMsg.participantJoined s "a1" "alice" [] ∈
          (handleJoin (fun n : Nat => decide (n = 1))
            (RoomState.mk [0, 1] []) 0 "a1" "alice" []).2)) :=
  ⟨by decide, join_from_closed_socket_still_effective
    (fun n : Nat => decide (n = 1)) (RoomState.mk [0, 1] []) 0 "a1" "alice" []
    (by decide)⟩

/-- C6: the `participantJoined` broadcast of a join reaches every
listed session that is open and not the sender exactly once, and no one
else: sessions that are not `OPEN` are skipped by the guard (the send
is simply not issued, nothing is raised), so one closed recipient never
affects delivery to the remaining recipients. -/
theorem join_broadcast_to_open_others (f : Nat → Bool) (st : RoomState)
    (ws : Nat) (sid userName : String) (ti : List TrackD)
    (hnd : st.sessions.Nodup) :
    (∀ s ∈ st.sessions, s ≠ ws → f s = true →
        ((handleJoin f st ws sid userName ti).2).count
          (OutMsg.participantJoined s sid userName ti) = 1) ∧
    (∀ d sid2 un2 ti2,
        OutMsg.participantJoined d sid2 un2 ti2 ∈
            (handleJoin f st ws sid userName ti).2 →
        d ∈ st.sessions ∧ d ≠ ws ∧ f d = true ∧
          sid2 = sid ∧ un2 = userName ∧ ti2 = ti) := by
  constructor
  · intro s hs hne hf
    exact handleJoin_count_participantJoined f st ws sid userName ti hnd s hs hne hf
  · intro d sid2 un2 ti2 h
    exact handleJoin_participantJoined_mem f st ws sid userName ti d sid2 un2 ti2 h

theorem join_broadcast_to_open_others_witness :
    ([1, 2, 3] : List Nat).Nodup ∧
    ((∀ s ∈ (RoomState.mk [1, 2, 3] []).sessions, s ≠ 1 →
        (fun n : Nat => decide (n ≠ 3)) s = true →
        ((handleJoin (fun n : Nat => decide (n ≠ 3))
            (RoomState.mk [1, 2, 3] []) 1 "b1" "bob" []).2).count
          (OutMsg.participantJoined s "b1" "bob" []) = 1) ∧
     (∀ d sid2 un2 ti2,
        OutMsg.participantJoined d sid2 un2 ti2 ∈
            (handleJoin (fun n : Nat => decide (n ≠ 3))
              (RoomState.mk [1, 2, 3] []) 1 "b1" "bob" []).2 →
        d ∈ (RoomState.mk [1, 2, 3] []).sessions ∧ d ≠ 1 ∧
          (fun n : Nat => decide (n ≠ 3)) d = true ∧
          sid2 = "b1" ∧ un2 = "bob" ∧ ti2 = ([] : List TrackD))) :=
  ⟨by decide, join_broadcast_to_open_others (fun n : Nat => decide (n ≠ 3))
    (RoomState.mk [1, 2, 3] []) 1 "b1" "bob" [] (by decide)⟩

/-- C5: two `joinRoom` messages from the same socket with the same
payload leave exactly one registry record for that id (the second
`Map.set` overwrites in place, last write wins), while each of the two
joins emits its own `participantJoined` to every other open session. -/
theorem duplicate_join_one_record_two_broadcasts (f : Nat → Bool)
    (st : RoomState) (ws : Nat) (sid userName : String) (ti : List TrackD)
    (hnd : st.sessions.Nodup) (hkeys : (keysOf st.participants).Nodup) :
    (let r1 := handleJoin f st ws sid userName ti
     let r2 := handleJoin f r1.1 ws sid userName ti
     (keysOf r2.1.participants).count sid = 1 ∧
     mapGet r2.1.participants sid = some (PInfo.mk ws userName ti) ∧
     r2.1.participants = r1.1.participants ∧
     (∀ s ∈ st.sessions, s ≠ ws → f s = true →
        r1.2.count (OutMsg.participantJoined s sid userName ti) = 1 ∧
        r2.2.count (OutMsg.participantJoined s sid userName ti) = 1)) := by
  intro r1 r2
  have h1 : r1.1.participants = mapSet st.participants sid (PInfo.mk ws userName ti) := rfl
  have h2 : r2.1.participants =
      mapSet (mapSet st.participants sid (PInfo.mk ws userName ti)) sid
        (PInfo.mk ws userName ti) := rfl
  have hsame : r2.1.participants = r1.1.participants := by
    rw [h1, h2, mapSet_mapSet_same]
  have hsess : r1.1.sessions = st.sessions := rfl
  refine ⟨?_, ?_, hsame, ?_⟩
  · rw [hsame, h1]
    exact count_keysOf_mapSet _ _ _ hkeys
  · rw [hsame, h1]
    exact mapGet_mapSet_self _ _ _
  · intro s hs hne hf
    refine ⟨handleJoin_count_participantJoined f st ws sid userName ti hnd
      s hs hne hf, ?_⟩
    exact handleJoin_count_participantJoined f r1.1 ws sid userName ti
      (hsess ▸ hnd) s (hsess ▸ hs) hne hf

theorem duplicate_join_one_record_two_broadcasts_witness :
    ([1, 2] : List Nat).Nodup ∧
    (keysOf (RoomState.mk [1, 2] []).participants).Nodup ∧
    (let r1 := handleJoin allOpen (RoomState.mk [1, 2] []) 1 "a1" "alice" []
     let r2 := handleJoin allOpen r1.1 1 "a1" "alice" []
     (keysOf r2.1.participants).count "a1" = 1 ∧
     mapGet r2.1.participants "a1" = some (PInfo.mk 1 "alice" []) ∧
     r2.1.participants = r1.1.participants ∧
     (∀ s ∈ (RoomState.mk [1, 2] []).sessions, s ≠ 1 → allOpen s = true →
        r1.2.count (OutMsg.participantJoined s "a1" "alice" []) = 1 ∧
        r2.2.count (OutMsg.participantJoined s "a1" "alice" []) = 1)) :=
  ⟨by decide, by decide, duplicate_join_one_record_two_broadcasts allOpen
    (RoomState.mk [1, 2] []) 1 "a1" "alice" [] (by decide) (by decide)⟩

/-- C3 counterexample: a participant can complete a full join with the
client-chosen id `""` (the code inserts, broadcasts and replies for it
without complaint).  When its socket then closes, the record is removed
from the registry — but `leavingSessionId` is `""`, which is falsy in
JS, so the `if (leavingSessionId)` guard skips the broadcast: the
remaining open session 2 receives no `participantLeft` at all, where
the claim demands exactly one. -/
theorem close_empty_id_counterexample :
    (let st0 := runSt initState [Event.connect 1, Event.connect 2,
        Event.message 1 (RawFrame.parsed (InMsg.mk "joinRoom" "" "alice" []))]
     let r := handleClose allOpen st0 1
     mapGet st0.participants "" = some (PInfo.mk 1 "alice" []) ∧
     r.1.sessions = [2] ∧
     r.1.participants = [] ∧
     r.2 = [] ∧
     r.2.count (OutMsg.participantLeft 2 "") = 0) := by
  decide

/-- C3 (amended): when a socket that owns a registry record closes, the
socket is removed from `sessions` and its record is deleted (all other
records keep their bindings); if the departed id is non-empty (truthy
in JS), every remaining open session receives exactly one
`participantLeft` carrying it and nothing else is sent, but if the
departed id is the empty string the `if (leavingSessionId)` guard is
falsy and no message is sent at all.  A socket closing without any
record bound to it (never joined) likewise triggers no message. -/
theorem close_cleanup_and_notification (f : Nat → Bool) (st : RoomState)
    (ws : Nat) (hnd : st.sessions.Nodup)
    (hkeys : (keysOf st.participants).Nodup)
    (huniq : ∀ e1 ∈ st.participants, ∀ e2 ∈ st.participants,
        e1.2.ws = ws → e2.2.ws = ws → e1 = e2) :
    (let r := handleClose f st ws
     ws ∉ r.1.sessions ∧
     (∀ id v, (id, v) ∈ st.participants → v.ws = ws →
        mapGet r.1.participants id = none ∧
        (∀ k, k ≠ id → mapGet r.1.participants k = mapGet st.participants k) ∧
        (id ≠ "" →
          (∀ s ∈ r.1.sessions, f s = true →
              r.2.count (OutMsg.participantLeft s id) = 1) ∧
          (∀ m ∈ r.2, ∃ s, s ∈ r.1.sessions ∧ f s = true ∧
              m = OutMsg.participantLeft s id)) ∧
        (id = "" → r.2 = [])) ∧
     ((∀ e ∈ st.participants, e.2.ws ≠ ws) → r.2 = [])) := by
  intro r
  have hrs : r.1.sessions = st.sessions.filter fun s => s ≠ ws := rfl
  have hrp : r.1.participants = (scanRemove st.participants ws).2 := rfl
  refine ⟨?_, ?_, ?_⟩
  · rw [hrs]
    intro hmem
    have := List.mem_filter.mp hmem
    simp at this
  · intro id v hv hvw
    have hfound : (scanRemove st.participants ws).1 = some id :=
      scanRemove_finds ws id v hvw st.participants hv huniq
    refine ⟨?_, ?_, ?_, ?_⟩
    · rw [hrp]
      exact scanRemove_mapGet_removed st.participants ws id hkeys hfound
    · intro k hk
      rw [hrp]
      apply scanRemove_mapGet_other
      intro id2 hid2
      rw [hfound] at hid2
      rw [← Option.some.inj hid2]
      exact hk
    · intro hne
      have hmsgs : r.2 = (st.sessions.filter fun s => s ≠ ws).filterMap
          fun s => if f s = true then
            some (OutMsg.participantLeft s id) else none := by
        show (handleClose f st ws).2 = _
        simp only [handleClose, hfound]
        rw [if_pos hne]
      constructor
      · intro s hs hf
        rw [hmsgs]
        exact count_filterMap_guard_one (fun s => f s = true)
          (fun s => OutMsg.participantLeft s id)
          (fun a b h => by injection h) s hf _
          (List.Nodup.filter _ hnd) (hrs ▸ hs)
      · intro m hm
        rw [hmsgs, mem_filterMap_guard] at hm
        obtain ⟨t, ht, hft, heq⟩ := hm
        exact ⟨t, hrs ▸ ht, hft, heq⟩
    · intro hempty
      show (handleClose f st ws).2 = []
      simp only [handleClose, hfound]
      rw [if_neg (by simpa using hempty)]
  · intro hno
    have hscan : scanRemove st.participants ws = (none, st.participants) :=
      scanRemove_of_no_match st.participants ws hno
    show (handleClose f st ws).2 = []
    simp only [handleClose, hscan]

theorem close_cleanup_and_notification_witness :
    ([1, 2, 3] : List Nat).Nodup ∧
    (keysOf [("a1", PInfo.mk 1 "alice" [])]).Nodup ∧
    (∀ e1 ∈ [("a1", PInfo.mk 1 "alice" [])],
      ∀ e2 ∈ [("a1", PInfo.mk 1 "alice" [])],
        e1.2.ws = 1 → e2.2.ws = 1 → e1 = e2) ∧
    (let r := handleClose allOpen
        (RoomState.mk [1, 2, 3] [("a1", PInfo.mk 1 "alice" [])]) 1
     1 ∉ r.1.sessions ∧
     (∀ id v, (id, v) ∈ (RoomState.mk [1, 2, 3]
          [("a1", PInfo.mk 1 "alice" [])]).participants → v.ws = 1 →
        mapGet r.1.participants id = none ∧
        (∀ k, k ≠ id → mapGet r.1.participants k =
            mapGet (RoomState.mk [1, 2, 3]
              [("a1", PInfo.mk 1 "alice" [])]).participants k) ∧
        (id ≠ "" →
          (∀ s ∈ r.1.sessions, allOpen s = true →
              r.2.count (OutMsg.participantLeft s id) = 1) ∧
          (∀ m ∈ r.2, ∃ s, s ∈ r.1.sessions ∧ allOpen s = true ∧
              m = OutMsg.participantLeft s id)) ∧
        (id = "" → r.2 = [])) ∧
     ((∀ e ∈ (RoomState.mk [1, 2, 3]
          [("a1", PInfo.mk 1 "alice" [])]).participants, e.2.ws ≠ 1) →
        r.2 = [])) :=
  ⟨by decide, by decide, by decide,
    close_cleanup_and_notification allOpen
      (RoomState.mk [1, 2, 3] [("a1", PInfo.mk 1 "alice" [])]) 1
      (by decide) (by decide) (by decide)⟩

/-- C1: a join from an open socket produces exactly one
`existingParticipants` reply, addressed to the sender alone, whose
list is exactly the registry's entries other than the sender's own id,
taken from the post-insert registry (so the sender never appears in its
own list, and — since the insert only touches the sender's id — every
participant registered before the join and not yet removed appears). -/
theorem join_reply_is_snapshot_of_others (f : Nat → Bool) (st : RoomState)
    (ws : Nat) (sid userName : String) (ti : List TrackD)
    (hopen : f ws = true) (hkeys : (keysOf st.participants).Nodup) :
    (let r := handleJoin f st ws sid userName ti
     ∃ l,
      r.2.filterMap existingOf = [(ws, l)] ∧
      (∀ p ∈ l, p.sessionId ≠ sid) ∧
      (∀ k v, k ≠ sid → mapGet r.1.participants k = some v →
          PubInfo.mk k v.userName v.trackInfo ∈ l) ∧
      (∀ p ∈ l, ∃ v, mapGet r.1.participants p.sessionId = some v ∧
          v.userName = p.userName ∧ v.trackInfo = p.trackInfo) ∧
      (∀ k, k ≠ sid → mapGet r.1.participants k = mapGet st.participants k)) := by
  intro r
  have hrp : r.1.participants =
      mapSet st.participants sid (PInfo.mk ws userName ti) := rfl
  have hkeys2 : (keysOf (mapSet st.participants sid
      (PInfo.mk ws userName ti))).Nodup := keysOf_nodup_mapSet _ _ _ hkeys
  refine ⟨snapshotExcept (mapSet st.participants sid
      (PInfo.mk ws userName ti)) sid, ?_, ?_, ?_, ?_, ?_⟩
  · have h2 : r.2 = (st.sessions.filterMap fun s =>
        if s ≠ ws ∧ f s = true then
          some (OutMsg.participantJoined s sid userName ti)
        else none) ++
        [OutMsg.existingParticipants ws
          (snapshotExcept (mapSet st.participants sid
            (PInfo.mk ws userName ti)) sid)] := by
      rw [handleJoin_snd, if_pos hopen]
    rw [h2, List.filterMap_append]
    have h3 : List.filterMap existingOf (st.sessions.filterMap fun s =>
        if s ≠ ws ∧ f s = true then
          some (OutMsg.participantJoined s sid userName ti)
        else none) = [] := by
      rw [List.filterMap_eq_nil_iff]
      intro a ha
      rw [mem_filterMap_guard] at ha
      obtain ⟨t, _, _, rfl⟩ := ha
      rfl
    rw [h3]
    rfl
  · intro p hp
    rw [mem_snapshotExcept] at hp
    obtain ⟨e, _, hne, rfl⟩ := hp
    exact hne
  · intro k v hk hget
    rw [hrp] at hget
    rw [mem_snapshotExcept]
    exact ⟨(k, v), (mapGet_eq_some_iff_mem _ k v hkeys2).mp hget, hk, rfl⟩
  · intro p hp
    rw [mem_snapshotExcept] at hp
    obtain ⟨e, he, hne, rfl⟩ := hp
    refine ⟨e.2, ?_, rfl, rfl⟩
    rw [hrp]
    exact (mapGet_eq_some_iff_mem _ e.1 e.2 hkeys2).mpr (by
      rcases e with ⟨k0, v0⟩
      exact he)
  · intro k hk
    rw [hrp]
    exact mapGet_mapSet_ne _ _ _ _ hk

theorem join_reply_is_snapshot_of_others_witness :
    allOpen 2 = true ∧
    (keysOf [("a1", PInfo.mk 1 "alice" [])]).Nodup ∧
    (let r := handleJoin allOpen
        (RoomState.mk [1, 2] [("a1", PInfo.mk 1 "alice" [])]) 2 "b1" "bob" []
     ∃ l,
      r.2.filterMap existingOf = [(2, l)] ∧
      (∀ p ∈ l, p.sessionId ≠ "b1") ∧
      (∀ k v, k ≠ "b1" → mapGet r.1.participants k = some v →
          PubInfo.mk k v.userName v.trackInfo ∈ l) ∧
      (∀ p ∈ l, ∃ v, mapGet r.1.participants p.sessionId = some v ∧
          v.userName = p.userName ∧ v.trackInfo = p.trackInfo) ∧
      (∀ k, k ≠ "b1" → mapGet r.1.participants k =
          mapGet (RoomState.mk [1, 2]
            [("a1", PInfo.mk 1 "alice" [])]).participants k)) :=
  ⟨rfl, by decide,
    join_reply_is_snapshot_of_others allOpen
      (RoomState.mk [1, 2] [("a1", PInfo.mk 1 "alice" [])]) 2 "b1" "bob" []
      rfl (by decide)⟩

/-- C2 counterexample: a single connection (socket 0) that sends two
`joinRoom` messages with two different client session ids produces two
registry records while only one session is attached — a run the
transport layer permits (both messages arrive while socket 0 is
attached) on which `participants.size` exceeds `sessions.size`. -/
theorem sessions_ge_participants_counterexample :
    (let evs := [Event.connect 0,
        Event.message 0 (RawFrame.parsed (InMsg.mk "joinRoom" "X" "u" [])),
        Event.message 0 (RawFrame.parsed (InMsg.mk "joinRoom" "Y" "u" []))]
     wfTrace initState evs = true ∧
     (runSt initState evs).sessions.length <
       (runSt initState evs).participants.length) := by
  decide

/-- C2 (amended): provided every socket uses a single client session id
across all its `joinRoom` messages — which rules out the counterexample
above — `sessions.size ≥ participants.size` holds after processing any
well-formed trace of events (and hence at every point in time, since
every prefix of a well-formed trace is well-formed). -/
theorem sessions_ge_participants_of_unique_ids (evs : List Event)
    (hwf : wfTrace initState evs = true) (hone : OneIdPerSocket evs) :
    (runSt initState evs).participants.length ≤
      (runSt initState evs).sessions.length := by
  have hInv : Inv (joinsOf evs) (runSt initState evs) := by
    apply inv_run (joinsOf evs) hone evs initState ?_ hwf ?_
    · refine ⟨by simp [initState, keysOf], ?_⟩
      intro e he
      simp [initState] at he
    · intro pq h
      exact h
  obtain ⟨hkeys, hmem⟩ := hInv
  have hnodup : ((runSt initState evs).participants.map fun e => e.2.ws).Nodup :=
    ws_map_nodup (joinsOf evs) hone (runSt initState evs).participants hkeys
      fun e he => (hmem e he).2
  have hsubset : ∀ x ∈ ((runSt initState evs).participants.map fun e => e.2.ws),
      x ∈ (runSt initState evs).sessions := by
    intro x hx
    obtain ⟨e, he, rfl⟩ := List.mem_map.mp hx
    exact (hmem e he).1
  calc (runSt initState evs).participants.length
      = ((runSt initState evs).participants.map fun e => e.2.ws).length := by
        rw [List.length_map]
    _ = ((runSt initState evs).participants.map fun e => e.2.ws).toFinset.card := by
        rw [List.toFinset_card_of_nodup hnodup]
    _ ≤ (runSt initState evs).sessions.toFinset.card := by
        apply Finset.card_le_card
        intro x hx
        rw [List.mem_toFinset] at hx ⊢
        exact hsubset x hx
    _ ≤ (runSt initState evs).sessions.length := List.toFinset_card_le _

theorem sessions_ge_participants_of_unique_ids_witness :
    wfTrace initState [Event.connect 0, Event.connect 1,
      Event.message 0 (RawFrame.parsed (InMsg.mk "joinRoom" "A" "u" []))] = true ∧
    OneIdPerSocket [Event.connect 0, Event.connect 1,
      Event.message 0 (RawFrame.parsed (InMsg.mk "joinRoom" "A" "u" []))] ∧
    (runSt initState [Event.connect 0, Event.connect 1,
      Event.message 0 (RawFrame.parsed (InMsg.mk "joinRoom" "A" "u" []))]).participants.length ≤
    (runSt initState [Event.connect 0, Event.connect 1,
      Event.message 0 (RawFrame.parsed (InMsg.mk "joinRoom" "A" "u" []))]).sessions.length :=
  ⟨by decide, by unfold OneIdPerSocket; decide,
    sessions_ge_participants_of_unique_ids
      [Event.connect 0, Event.connect 1,
        Event.message 0 (RawFrame.parsed (InMsg.mk "joinRoom" "A" "u" []))]
      (by decide) (by unfold OneIdPerSocket; decide)⟩

end ChatRoom
